import Mathlib

/-!
Verification of the FLIF adaptive context-tree entropy-coding core and the
lossless YCoCg color transform, as a shallow embedding of
`src/transform/ycocg.hpp` and `src/maniac/compound.hpp`.

Machine integers (`ColorVal`, `int`, `int16_t`, `uint32_t`, ...) are modelled
as `Int` (indices as `Nat`); none of the verified claims depends on wrap-around
behaviour.  The C arithmetic right shift `>> 1` on `int` rounds toward `-∞`,
which for Lean's `Int` is exactly `/ 2` (Euclidean division by a positive
divisor).  The C integer division `/` truncates toward zero and is modelled by
`Int.tdiv`.
-/

/-- C arithmetic right shift by one on `int`: floor division by 2. -/
def shr1 (x : Int) : Int := x / 2

/-- C `abs` on `int`. -/
def iabs (x : Int) : Int := if x < 0 then -x else x

/-- C++ `std::max` on `int` (`a < b ? b : a`). -/
def imax (a b : Int) : Int := if a < b then b else a

/-- C++ `std::min` on `int` (`b < a ? b : a`). -/
def imin (a b : Int) : Int := if b < a then b else a

/-- The `clip(x,l,u)` macro of `ycocg.hpp` line 27. -/
def clip (x l u : Int) : Int := if x < l then l else if x > u then u else x

/-- `get_min_y` (`ycocg.hpp` lines 66-68). -/
def get_min_y (_par : Int) : Int := 0

/-- `get_max_y` (`ycocg.hpp` lines 70-72). -/
def get_max_y (par : Int) : Int := par * 4 - 1

/-- `get_min_co` (`ycocg.hpp` lines 74-85). -/
def get_min_co (par : Int) (y : Int) : Int :=
  if y < par - 1 then -4 - 4 * y
  else if y ≥ 3 * par then 3 + 4 * (y - 4 * par)
  else -4 * par

/-- `get_max_co` (`ycocg.hpp` lines 87-98). -/
def get_max_co (par : Int) (y : Int) : Int :=
  if y < par - 1 then 2 + 4 * y
  else if y ≥ 3 * par then 4 * par - 5 - 4 * (y - 3 * par)
  else 4 * par - 2

/-- `get_min_cg` (`ycocg.hpp` lines 100-115). -/
def get_min_cg (par : Int) (y co : Int) : Int :=
  if co < get_min_co par y then 8 * par
  else if co > get_max_co par y then 8 * par
  else if y < par - 1 then -2 - 2 * y + (iabs (co + 1) / 2) * 2
  else if y ≥ 3 * par then -1 - 2 * (4 * par - 1 - y)
  else imax (-4 * par + 1 + (y - 2 * par) * 2)
            (-2 * par - (y - par + 1) * 2 + (iabs (co + 1) / 2) * 2)

/-- `get_max_cg` (`ycocg.hpp` lines 117-134). -/
def get_max_cg (par : Int) (y co : Int) : Int :=
  if co < get_min_co par y then -8 * par
  else if co > get_max_co par y then -8 * par
  else if y < par - 1 then 2 * y
  else if y ≥ 3 * par then -1 + 2 * (4 * par - 1 - y) - ((1 + iabs (co + 1)) / 2) * 2
  else imin (2 * par - 2 + (y - par + 1) * 2)
            (2 * par - 1 + (3 * par - 1 - y) * 2 - ((1 + iabs (co + 1)) / 2) * 2)

/-- Abstract view of a `ColorRanges` object: plane count and per-plane bounds. -/
structure ColorRangesModel where
  numPlanes : Nat
  min : Nat → Int
  max : Nat → Int

/-- `ColorRangesYCoCg::min` / `ColorRangesYCoCg::max` (`ycocg.hpp` lines 150-165),
as the wrapped range object built by `TransformYCoCg::meta`. -/
def ColorRangesYCoCg (par : Int) (ranges : ColorRangesModel) : ColorRangesModel where
  numPlanes := ranges.numPlanes
  min := fun p => match p with
    | 0 => 0
    | 1 => -4 * par
    | 2 => -4 * par
    | _ => ranges.min p
  max := fun p => match p with
    | 0 => 4 * par - 1
    | 1 => 4 * par - 2
    | 2 => 4 * par - 2
    | _ => ranges.max p

namespace TransformYCoCg

/-- `TransformYCoCg::init` (`ycocg.hpp` lines 183-191).  Returns `none` where the
C++ code returns `false` (transform not applicable, `par` must not be used), and
`some par` where it returns `true`, with `par = max/4 + 1` (C truncating division). -/
def init (src : ColorRangesModel) : Option Int :=
  if src.numPlanes < 3 then none
  else if src.min 0 < 0 ∨ src.min 1 < 0 ∨ src.min 2 < 0 then none
  else if src.min 0 = src.max 0 ∨ src.min 1 = src.max 1 ∨ src.min 2 = src.max 2 then none
  else some ((imax (imax (src.max 0) (src.max 1)) (src.max 2)).tdiv 4 + 1)

/-- Luma of the forward transform (`ycocg.hpp` line 208): `Y = (((R+B)>>1)+G)>>1`. -/
def fwdY (R G B : Int) : Int := shr1 (shr1 (R + B) + G)

/-- Orange chroma of the forward transform (`ycocg.hpp` line 209): `Co = (R-B)-1`. -/
def fwdCo (R B : Int) : Int := (R - B) - 1

/-- Green chroma of the forward transform (`ycocg.hpp` line 210): `Cg = (((R+B)>>1)-G)-1`. -/
def fwdCg (R G B : Int) : Int := (shr1 (R + B) - G) - 1

/-- Per-pixel body of `TransformYCoCg::data` (`ycocg.hpp` lines 204-214). -/
def dataPixel (R G B : Int) : Int × Int × Int :=
  (fwdY R G B, fwdCo R B, fwdCg R G B)

/-- Unclipped inverse red (`ycocg.hpp` line 232). -/
def invR (Y Co Cg : Int) : Int := Y + shr1 (Cg + 2) + shr1 (Co + 2)

/-- Unclipped inverse green (`ycocg.hpp` line 233). -/
def invG (Y Cg : Int) : Int := Y - shr1 (Cg + 1)

/-- Unclipped inverse blue (`ycocg.hpp` line 234). -/
def invB (Y Co Cg : Int) : Int := Y + shr1 (Cg + 2) - shr1 (Co + 1)

/-- Per-pixel body of `TransformYCoCg::invData` (`ycocg.hpp` lines 228-242),
including the final `clip` to `[0, ranges->max(k)]`. -/
def invDataPixel (max0 max1 max2 Y Co Cg : Int) : Int × Int × Int :=
  (clip (invR Y Co Cg) 0 max0, clip (invG Y Cg) 0 max1, clip (invB Y Co Cg) 0 max2)

end TransformYCoCg

/-- On a nonnegative argument, C truncating division by 4 agrees with Lean's
Euclidean division. -/
theorem tdiv_four_nonneg (a : Int) (h : 0 ≤ a) : a.tdiv 4 = a / 4 := by
  obtain ⟨n, rfl⟩ := Int.eq_ofNat_of_zero_le h
  rfl

/-- C1: for every triple `(R,G,B)` with each channel in the declared source range
`[0, srcmax[k]]` of an applicable transform (`init` succeeded, `par = M/4 + 1`),
the forward YCoCg transform followed by the inverse (with the clamp to
`[0, srcmax[k]]`) reproduces `(R,G,B)` exactly. -/
theorem ycocg_roundtrip (src : ColorRangesModel) (par : Int)
    (hinit : TransformYCoCg.init src = some par)
    (R G B : Int)
    (hR0 : 0 ≤ R) (hR1 : R ≤ src.max 0)
    (hG0 : 0 ≤ G) (hG1 : G ≤ src.max 1)
    (hB0 : 0 ≤ B) (hB1 : B ≤ src.max 2) :
    TransformYCoCg.invDataPixel (src.max 0) (src.max 1) (src.max 2)
      (TransformYCoCg.fwdY R G B) (TransformYCoCg.fwdCo R B) (TransformYCoCg.fwdCg R G B)
      = (R, G, B) := by
  clear hinit
  simp only [TransformYCoCg.invDataPixel, TransformYCoCg.fwdY, TransformYCoCg.fwdCo,
    TransformYCoCg.fwdCg, TransformYCoCg.invR, TransformYCoCg.invG, TransformYCoCg.invB,
    clip, shr1, Prod.mk.injEq]
  refine ⟨?_, ?_, ?_⟩ <;> split_ifs <;> omega

/-- Witness for C1 at the spec's seed scenario: 8-bit ranges, `(R,G,B) = (200,100,50)`. -/
theorem ycocg_roundtrip_witness :
    TransformYCoCg.invDataPixel 255 255 255
      (TransformYCoCg.fwdY 200 100 50) (TransformYCoCg.fwdCo 200 50)
      (TransformYCoCg.fwdCg 200 100 50) = (200, 100, 50) :=
  ycocg_roundtrip ⟨3, fun _ => 0, fun _ => 255⟩ 64 (by decide)
    200 100 50 (by decide) (by decide) (by decide) (by decide) (by decide) (by decide)

/-- C6: with `par = M/4 + 1` derived from the channel maxima and every channel in
`[0, M]`, the forward outputs lie within the static per-plane bounds reported by
`ColorRangesYCoCg::min` / `ColorRangesYCoCg::max`: `Y ∈ [0, 4par-1]`,
`Co ∈ [-4par, 4par-2]`, `Cg ∈ [-4par, 4par-2]`. -/
theorem ycocg_range_closure (base : ColorRangesModel) (m0 m1 m2 M par : Int)
    (hM : M = imax (imax m0 m1) m2) (hpar : par = M.tdiv 4 + 1)
    (R G B : Int)
    (hR0 : 0 ≤ R) (hR1 : R ≤ m0)
    (hG0 : 0 ≤ G) (hG1 : G ≤ m1)
    (hB0 : 0 ≤ B) (hB1 : B ≤ m2) :
    ((ColorRangesYCoCg par base).min 0 ≤ TransformYCoCg.fwdY R G B ∧
      TransformYCoCg.fwdY R G B ≤ (ColorRangesYCoCg par base).max 0) ∧
    ((ColorRangesYCoCg par base).min 1 ≤ TransformYCoCg.fwdCo R B ∧
      TransformYCoCg.fwdCo R B ≤ (ColorRangesYCoCg par base).max 1) ∧
    ((ColorRangesYCoCg par base).min 2 ≤ TransformYCoCg.fwdCg R G B ∧
      TransformYCoCg.fwdCg R G B ≤ (ColorRangesYCoCg par base).max 2) := by
  have hM0 : 0 ≤ M := by simp only [imax] at hM; split_ifs at hM <;> omega
  rw [tdiv_four_nonneg M hM0] at hpar
  simp only [imax] at hM
  simp only [ColorRangesYCoCg, TransformYCoCg.fwdY, TransformYCoCg.fwdCo,
    TransformYCoCg.fwdCg, shr1]
  split_ifs at hM <;> omega

/-- Witness for C6 at 8-bit ranges and `(R,G,B) = (255,0,255)`. -/
theorem ycocg_range_closure_witness :
    (((ColorRangesYCoCg 64 ⟨3, fun _ => 0, fun _ => 255⟩).min 0 ≤ TransformYCoCg.fwdY 255 0 255 ∧
      TransformYCoCg.fwdY 255 0 255 ≤ (ColorRangesYCoCg 64 ⟨3, fun _ => 0, fun _ => 255⟩).max 0) ∧
    ((ColorRangesYCoCg 64 ⟨3, fun _ => 0, fun _ => 255⟩).min 1 ≤ TransformYCoCg.fwdCo 255 255 ∧
      TransformYCoCg.fwdCo 255 255 ≤ (ColorRangesYCoCg 64 ⟨3, fun _ => 0, fun _ => 255⟩).max 1) ∧
    ((ColorRangesYCoCg 64 ⟨3, fun _ => 0, fun _ => 255⟩).min 2 ≤ TransformYCoCg.fwdCg 255 0 255 ∧
      TransformYCoCg.fwdCg 255 0 255 ≤ (ColorRangesYCoCg 64 ⟨3, fun _ => 0, fun _ => 255⟩).max 2)) :=
  ycocg_range_closure ⟨3, fun _ => 0, fun _ => 255⟩ 255 255 255 255 64
    (by decide) (by decide) 255 0 255
    (by decide) (by decide) (by decide) (by decide) (by decide) (by decide)

/-- C7: `TransformYCoCg::init` fails exactly when the source has fewer than 3
planes, some channel minimum is negative, or some channel is degenerate
(`min == max`); on success it derives `par = M/4 + 1` from the maximum channel
maximum `M` (C truncating division).  A failed `init` yields no parameter at
all (`none`), so the transform cannot be installed. -/
theorem ycocg_init_spec (src : ColorRangesModel) :
    (TransformYCoCg.init src = none ↔
      (src.numPlanes < 3 ∨
       (src.min 0 < 0 ∨ src.min 1 < 0 ∨ src.min 2 < 0) ∨
       (src.min 0 = src.max 0 ∨ src.min 1 = src.max 1 ∨ src.min 2 = src.max 2))) ∧
    (∀ p, TransformYCoCg.init src = some p →
      p = (imax (imax (src.max 0) (src.max 1)) (src.max 2)).tdiv 4 + 1) := by
  constructor
  · simp only [TransformYCoCg.init]
    split_ifs with h1 h2 h3
    · exact iff_of_true rfl (Or.inl h1)
    · exact iff_of_true rfl (Or.inr (Or.inl h2))
    · exact iff_of_true rfl (Or.inr (Or.inr h3))
    · refine iff_of_false (by simp) ?_
      push_neg at h1 h2 h3 ⊢
      exact ⟨h1, h2, h3⟩
  · intro p hp
    simp only [TransformYCoCg.init] at hp
    split_ifs at hp
    exact (Option.some.injEq _ _).mp hp |>.symm

/-- Witness for C7: both directions at concrete range objects. -/
theorem ycocg_init_spec_witness :
    (TransformYCoCg.init ⟨2, fun _ => 0, fun _ => 255⟩ = none ↔
      ((2 : Nat) < 3 ∨
       ((0 : Int) < 0 ∨ (0 : Int) < 0 ∨ (0 : Int) < 0) ∨
       ((0 : Int) = 255 ∨ (0 : Int) = 255 ∨ (0 : Int) = 255))) ∧
    ((64 : Int) = (imax (imax (255 : Int) 255) 255).tdiv 4 + 1) :=
  ⟨(ycocg_init_spec ⟨2, fun _ => 0, fun _ => 255⟩).1,
   (ycocg_init_spec ⟨3, fun _ => 0, fun _ => 255⟩).2 64 (by decide)⟩

/-- The forward transform is a left inverse of the unclipped inverse formulas:
every integer triple `(Y, Co, Cg)` is recovered exactly. -/
theorem fwd_of_inv (y co cg : Int) :
    TransformYCoCg.fwdY (TransformYCoCg.invR y co cg) (TransformYCoCg.invG y cg)
        (TransformYCoCg.invB y co cg) = y ∧
    TransformYCoCg.fwdCo (TransformYCoCg.invR y co cg) (TransformYCoCg.invB y co cg) = co ∧
    TransformYCoCg.fwdCg (TransformYCoCg.invR y co cg) (TransformYCoCg.invG y cg)
        (TransformYCoCg.invB y co cg) = cg := by
  simp only [TransformYCoCg.fwdY, TransformYCoCg.fwdCo, TransformYCoCg.fwdCg,
    TransformYCoCg.invR, TransformYCoCg.invG, TransformYCoCg.invB, shr1]
  refine ⟨?_, ?_, ?_⟩ <;> omega

set_option maxHeartbeats 2000000 in
/-- C4: dependent-range tightness of the YCoCg range tables.  `par ≥ 1` is
exactly the set of parameters derivable as `par = M/4 + 1` from a channel
maximum `M ≥ 0`; the declared RGB range for `par` is `[0, 4·par - 1]` (the
canonical source range, `M = 4·par - 1`).  For every luma `y` in
`[get_min_y, get_max_y]` some in-range `(R,G,B)` realizes
`Co = get_min_co par y`, some realizes `Co = get_max_co par y`, and for every
`co` between those two bounds some in-range `(R,G,B)` realizes
`Cg = get_min_cg par y co` and some realizes `Cg = get_max_cg par y co`. -/
theorem ycocg_tightness (par : Int) (hpar : 1 ≤ par) (y : Int)
    (hy0 : get_min_y par ≤ y) (hy1 : y ≤ get_max_y par) :
    (∃ R G B, (0 ≤ R ∧ R ≤ 4 * par - 1) ∧ (0 ≤ G ∧ G ≤ 4 * par - 1) ∧
       (0 ≤ B ∧ B ≤ 4 * par - 1) ∧
       TransformYCoCg.fwdY R G B = y ∧ TransformYCoCg.fwdCo R B = get_min_co par y) ∧
    (∃ R G B, (0 ≤ R ∧ R ≤ 4 * par - 1) ∧ (0 ≤ G ∧ G ≤ 4 * par - 1) ∧
       (0 ≤ B ∧ B ≤ 4 * par - 1) ∧
       TransformYCoCg.fwdY R G B = y ∧ TransformYCoCg.fwdCo R B = get_max_co par y) ∧
    (∀ co, get_min_co par y ≤ co → co ≤ get_max_co par y →
      (∃ R G B, (0 ≤ R ∧ R ≤ 4 * par - 1) ∧ (0 ≤ G ∧ G ≤ 4 * par - 1) ∧
         (0 ≤ B ∧ B ≤ 4 * par - 1) ∧
         TransformYCoCg.fwdY R G B = y ∧ TransformYCoCg.fwdCo R B = co ∧
         TransformYCoCg.fwdCg R G B = get_min_cg par y co) ∧
      (∃ R G B, (0 ≤ R ∧ R ≤ 4 * par - 1) ∧ (0 ≤ G ∧ G ≤ 4 * par - 1) ∧
         (0 ≤ B ∧ B ≤ 4 * par - 1) ∧
         TransformYCoCg.fwdY R G B = y ∧ TransformYCoCg.fwdCo R B = co ∧
         TransformYCoCg.fwdCg R G B = get_max_cg par y co)) := by
  simp only [get_min_y, get_max_y] at hy0 hy1
  refine ⟨?_, ?_, fun co hco1 hco2 => ⟨?_, ?_⟩⟩
  · refine ⟨if y < par - 1 then 0 else if 3 * par ≤ y then 4 * y - 12 * par + 3 else 0,
      if y < par - 1 then 0 else if 3 * par ≤ y then 4 * par - 1
        else (if y = 3 * par - 1 then 2 * y - 2 * par + 1 else 2 * y - 2 * par + 2),
      if y < par - 1 then 3 + 4 * y else 4 * par - 1, ?_⟩
    simp only [TransformYCoCg.fwdY, TransformYCoCg.fwdCo, get_min_co, shr1]
    split_ifs <;> omega
  · refine ⟨if y < par - 1 then 3 + 4 * y else 4 * par - 1,
      if y < par - 1 then 0 else if 3 * par ≤ y then 4 * par - 1
        else (if y = 3 * par - 1 then 2 * y - 2 * par + 1 else 2 * y - 2 * par + 2),
      if y < par - 1 then 0 else if 3 * par ≤ y then 4 * y - 12 * par + 3 else 0, ?_⟩
    simp only [TransformYCoCg.fwdY, TransformYCoCg.fwdCo, get_max_co, shr1]
    split_ifs <;> omega
  · obtain ⟨e1, e2, e3⟩ := fwd_of_inv y co (get_min_cg par y co)
    refine ⟨TransformYCoCg.invR y co (get_min_cg par y co),
      TransformYCoCg.invG y (get_min_cg par y co),
      TransformYCoCg.invB y co (get_min_cg par y co), ?_, ?_, ?_, e1, e2, e3⟩ <;>
    · simp only [TransformYCoCg.invR, TransformYCoCg.invG, TransformYCoCg.invB,
        get_min_cg, get_min_co, get_max_co, iabs, imax, shr1] at hco1 hco2 ⊢
      split_ifs at hco1 hco2 ⊢ <;> omega
  · obtain ⟨e1, e2, e3⟩ := fwd_of_inv y co (get_max_cg par y co)
    refine ⟨TransformYCoCg.invR y co (get_max_cg par y co),
      TransformYCoCg.invG y (get_max_cg par y co),
      TransformYCoCg.invB y co (get_max_cg par y co), ?_, ?_, ?_, e1, e2, e3⟩ <;>
    · simp only [TransformYCoCg.invR, TransformYCoCg.invG, TransformYCoCg.invB,
        get_max_cg, get_min_co, get_max_co, iabs, imin, shr1] at hco1 hco2 ⊢
      split_ifs at hco1 hco2 ⊢ <;> omega

/-- Witness for C4 at `par = 64`, `y = 10` (the spec's range-query scenario). -/
theorem ycocg_tightness_witness :
    (∃ R G B, (0 ≤ R ∧ R ≤ 4 * (64 : Int) - 1) ∧ (0 ≤ G ∧ G ≤ 4 * (64 : Int) - 1) ∧
       (0 ≤ B ∧ B ≤ 4 * (64 : Int) - 1) ∧
       TransformYCoCg.fwdY R G B = 10 ∧ TransformYCoCg.fwdCo R B = get_min_co 64 10) ∧
    (∃ R G B, (0 ≤ R ∧ R ≤ 4 * (64 : Int) - 1) ∧ (0 ≤ G ∧ G ≤ 4 * (64 : Int) - 1) ∧
       (0 ≤ B ∧ B ≤ 4 * (64 : Int) - 1) ∧
       TransformYCoCg.fwdY R G B = 10 ∧ TransformYCoCg.fwdCo R B = get_max_co 64 10) ∧
    (∀ co, get_min_co 64 10 ≤ co → co ≤ get_max_co 64 10 →
      (∃ R G B, (0 ≤ R ∧ R ≤ 4 * (64 : Int) - 1) ∧ (0 ≤ G ∧ G ≤ 4 * (64 : Int) - 1) ∧
         (0 ≤ B ∧ B ≤ 4 * (64 : Int) - 1) ∧
         TransformYCoCg.fwdY R G B = 10 ∧ TransformYCoCg.fwdCo R B = co ∧
         TransformYCoCg.fwdCg R G B = get_min_cg 64 10 co) ∧
      (∃ R G B, (0 ≤ R ∧ R ≤ 4 * (64 : Int) - 1) ∧ (0 ≤ G ∧ G ≤ 4 * (64 : Int) - 1) ∧
         (0 ≤ B ∧ B ≤ 4 * (64 : Int) - 1) ∧
         TransformYCoCg.fwdY R G B = 10 ∧ TransformYCoCg.fwdCo R B = co ∧
         TransformYCoCg.fwdCg R G B = get_max_cg 64 10 co)) :=
  ycocg_tightness 64 (by decide) 10 (by decide) (by decide)

/-- `PropertyDecisionNode` (`compound.hpp` lines 35-45).  `property = -1` marks a
leaf; `int8_t`/`int16_t`/`PropertyVal` fields are modelled as `Int` and the
index fields `childID`/`leafID` (`uint32_t`) as `Nat`. -/
structure PropertyDecisionNode where
  property : Int
  count : Int
  splitval : Int
  childID : Nat
  leafID : Nat
deriving DecidableEq

/-- The default constructor `PropertyDecisionNode()` (`compound.hpp` line 44):
`property = -1`, `count = 0`, `splitval = 0`, `childID = 0`, `leafID = 0`. -/
def defaultNode : PropertyDecisionNode := ⟨-1, 0, 0, 0, 0⟩

/-- Modelled from the spec: `CONTEXT_TREE_MIN_COUNT` is a configuration constant
defined outside `src/` (spec section 6 lists it only as the lower end of the
meta-coded count range); the claims use it symbolically, so its value is inert. -/
def CONTEXT_TREE_MIN_COUNT : Int := 1

/-- Modelled from the spec: `CONTEXT_TREE_MAX_COUNT`, the upper end of the
meta-coded count range, defined outside `src/`; used only symbolically. -/
def CONTEXT_TREE_MAX_COUNT : Int := 512

/-- State owned by a `FinalPropertySymbolCoder`: the adopted decision tree
(`inner_node`, a `Tree&`) and the leaf store (`leaf_node`, a vector of
`FinalCompoundSymbolChances`, abstracted to an arbitrary element type `α`). -/
structure FPState (α : Type) where
  inner_node : List PropertyDecisionNode
  leaf_node : List α
deriving DecidableEq

/-- Modelled from the spec: `SimpleSymbolCoder::read_int(min, max)`
(`maniac/symbol.hpp`, not under `src/`) always yields a value in `[min, max]`
decoded from the compressed stream.  The stream is modelled as the list of
decoded integers; a read consumes one entry and clamps it into the range
(an exhausted stream yields `min`). -/
def streamRead (lo hi : Int) (s : List Int) : Int × List Int :=
  match s with
  | [] => (lo, [])
  | x :: r => (if x < lo then lo else if x > hi then hi else x, r)

/-- Ghost record of one decoded inner node of `read_subtree`: position, decoded
property index, the subrange bounds current at that node, whether the
`lo ≥ hi` validity check passed, the decoded count and split value, the
assigned `childID` and the tree size just before the two children were
appended.  Failing nodes carry `ok = false` and zeroed decode fields. -/
structure SubtreeRec where
  pos : Nat
  p : Nat
  lo : Int
  hi : Int
  ok : Bool
  count : Int
  splitval : Int
  childID : Nat
  sizeBefore : Nat
deriving DecidableEq

namespace MetaPropertySymbolCoder

/-- `MetaPropertySymbolCoder::read_subtree` (`compound.hpp` lines 223-253),
with explicit state passing: the mutable `subrange`, `tree` and the decoded
stream are threaded through, and the `bool` result is paired with them.
`nb_properties` equals `subrange.length` throughout (the recursion never
changes the length).  The C++ recursion can exhaust the stack on a malicious
stream, so the embedding takes a fuel argument; `none` means fuel ran out.
The returned `List SubtreeRec` is a ghost trace of the decoded inner nodes. -/
def read_subtree :
    Nat → Nat → List (Int × Int) → List PropertyDecisionNode → List Int →
    Option (Bool × List (Int × Int) × List PropertyDecisionNode × List Int × List SubtreeRec)
  | 0, _, _, _, _ => none
  | fuel + 1, pos, subrange, tree, s =>
    let n0 := tree.getD pos defaultNode
    let v := (streamRead 0 (subrange.length : Int) s).1
    let s1 := (streamRead 0 (subrange.length : Int) s).2
    let p := v - 1
    if p = -1 then
      some (true, subrange, tree.set pos { n0 with property := -1 }, s1, [])
    else
      let pi := p.toNat
      let lo := (subrange.getD pi (0, 0)).1
      let hi := (subrange.getD pi (0, 0)).2
      if lo ≥ hi then
        some (false, subrange, tree.set pos { n0 with property := p }, s1,
          [⟨pos, pi, lo, hi, false, 0, 0, 0, 0⟩])
      else
        let cnt := (streamRead CONTEXT_TREE_MIN_COUNT CONTEXT_TREE_MAX_COUNT s1).1
        let s2 := (streamRead CONTEXT_TREE_MIN_COUNT CONTEXT_TREE_MAX_COUNT s1).2
        let sv := (streamRead lo (hi - 1) s2).1
        let s3 := (streamRead lo (hi - 1) s2).2
        let cid := tree.length
        let tree2 := (tree.set pos
          { n0 with property := p, count := cnt, splitval := sv, childID := cid })
          ++ [defaultNode, defaultNode]
        let r0 : SubtreeRec := ⟨pos, pi, lo, hi, true, cnt, sv, cid, tree.length⟩
        match read_subtree fuel cid (subrange.set pi (sv + 1, hi)) tree2 s3 with
        | none => none
        | some (false, sr1, t1, z1, recs1) => some (false, sr1, t1, z1, r0 :: recs1)
        | some (true, sr1, t1, z1, recs1) =>
          match read_subtree fuel (cid + 1) (sr1.set pi (lo, sv)) t1 z1 with
          | none => none
          | some (false, sr2, t2, z2, recs2) =>
            some (false, sr2, t2, z2, r0 :: recs1 ++ recs2)
          | some (true, sr2, t2, z2, recs2) =>
            some (true, sr2.set pi ((sr2.getD pi (0, 0)).1, hi), t2, z2,
              r0 :: recs1 ++ recs2)

/-- `MetaPropertySymbolCoder::read_tree` (`compound.hpp` lines 254-259): reset
the tree to a single default node and decode from position 0 over a copy of
the root range vector. -/
def read_tree (fuel : Nat) (range : List (Int × Int)) (s : List Int) :
    Option (Bool × List (Int × Int) × List PropertyDecisionNode × List Int × List SubtreeRec) :=
  read_subtree fuel 0 range [defaultNode] s

end MetaPropertySymbolCoder

namespace FinalPropertySymbolCoder

/-- `FinalPropertySymbolCoder::find_leaf` (`compound.hpp` lines 131-162).  The
C++ function returns a reference into the leaf store; since the store is
indexed by stable integer handles, the embedding returns the index together
with the updated coder state.  The `while` loop is driven by fuel (`none` =
fuel exhausted or walk left the tree, which in C++ is undefined behaviour). -/
def find_leaf [Inhabited α] (props : List Int) :
    Nat → Nat → FPState α → Option (Nat × FPState α)
  | 0, _, _ => none
  | fuel + 1, pos, st =>
    match st.inner_node[pos]? with
    | none => none
    | some n =>
      if n.property = -1 then some (n.leafID, st)
      else if n.count < 0 then
        find_leaf props fuel
          (if props.getD n.property.toNat 0 > n.splitval then n.childID else n.childID + 1) st
      else if n.count > 0 then
        some (n.leafID, ⟨st.inner_node.set pos { n with count := n.count - 1 }, st.leaf_node⟩)
      else
        let old_leaf := n.leafID
        let new_leaf := st.leaf_node.length
        let tree1 := st.inner_node.set pos { n with count := n.count - 1 }
        let tree2 := tree1.set n.childID
          { tree1.getD n.childID defaultNode with leafID := old_leaf }
        let tree3 := tree2.set (n.childID + 1)
          { tree2.getD (n.childID + 1) defaultNode with leafID := new_leaf }
        some (if props.getD n.property.toNat 0 > n.splitval then old_leaf else new_leaf,
          ⟨tree3, st.leaf_node ++ [st.leaf_node.getD old_leaf default]⟩)

end FinalPropertySymbolCoder

/-- Modelled from the spec: `reader<bits>(bitCoder, min, max)` of
`maniac/symbol.hpp` is not under `src/`.  Per spec section 4.3 it returns `min`
immediately, without touching the bitstream or any chance, when `min == max`;
the nontrivial decoding path is abstracted by the parameter `f` acting on the
chance bundle and the RAC state. -/
def reader (f : Int → Int → α → ρ → Int × α × ρ) (mn mx : Int) (ch : α) (rac : ρ) :
    Int × α × ρ :=
  if mn = mx then (mn, ch, rac) else f mn mx ch rac

/-- Modelled from the spec: the fixed-width overload `reader(bitCoder, nbits)`
of `maniac/symbol.hpp`, abstracted by the parameter `g` (no short-circuit
exists on this path). -/
def readerFixed (g : Nat → α → ρ → Int × α × ρ) (nbits : Nat) (ch : α) (rac : ρ) :
    Int × α × ρ :=
  g nbits ch rac

namespace FinalCompoundSymbolCoder

/-- `FinalCompoundSymbolCoder::read_int` (ranged, `compound.hpp` lines 104-108):
builds a bit coder over the chance bundle and delegates to `reader`. -/
def read_int (f : Int → Int → α → ρ → Int × α × ρ) (ch : α) (mn mx : Int) (rac : ρ) :
    Int × α × ρ :=
  reader f mn mx ch rac

/-- `FinalCompoundSymbolCoder::read_int` (fixed-width, `compound.hpp` lines
109-113): delegates to the fixed-width `reader`. -/
def read_int_nbits (g : Nat → α → ρ → Int × α × ρ) (ch : α) (nbits : Nat) (rac : ρ) :
    Int × α × ρ :=
  readerFixed g nbits ch rac

end FinalCompoundSymbolCoder

namespace FinalPropertySymbolCoder

/-- `FinalPropertySymbolCoder::read_int` (ranged, `compound.hpp` lines 175-180):
short-circuits `min == max`, otherwise locates the leaf via `find_leaf` and
delegates to the compound coder on that leaf's chances (the in-place update of
the referenced leaf is the `List.set` at its index).  The debug assertion
`properties.size() == nb_properties` is a caller precondition. -/
def read_int [Inhabited α] (f : Int → Int → α → ρ → Int × α × ρ) (fuel : Nat)
    (props : List Int) (mn mx : Int) (st : FPState α) (rac : ρ) :
    Option (Int × FPState α × ρ) :=
  if mn = mx then some (mn, st, rac)
  else
    match find_leaf props fuel 0 st with
    | none => none
    | some (idx, st1) =>
      let r := FinalCompoundSymbolCoder.read_int f (st1.leaf_node.getD idx default) mn mx rac
      some (r.1, ⟨st1.inner_node, st1.leaf_node.set idx r.2.1⟩, r.2.2)

/-- `FinalPropertySymbolCoder::read_int` (fixed-width, `compound.hpp` lines
183-187): no short-circuit; always locates the leaf via `find_leaf` and
delegates to the fixed-width compound read. -/
def read_int_nbits [Inhabited α] (g : Nat → α → ρ → Int × α × ρ) (fuel : Nat)
    (props : List Int) (nbits : Nat) (st : FPState α) (rac : ρ) :
    Option (Int × FPState α × ρ) :=
  match find_leaf props fuel 0 st with
  | none => none
  | some (idx, st1) =>
    let r := FinalCompoundSymbolCoder.read_int_nbits g (st1.leaf_node.getD idx default) nbits rac
    some (r.1, ⟨st1.inner_node, st1.leaf_node.set idx r.2.1⟩, r.2.2)

end FinalPropertySymbolCoder

/-- Tree well-formedness (spec section 3, invariants 2 and 3): every inner node
has both children in the tree, and the `leafID` of every leaf-role node
(leaves and not-yet-activated nodes, `count ≥ 0`) indexes into the leaf
store. -/
def WFtree (tree : List PropertyDecisionNode) (nLeafs : Nat) : Prop :=
  ∀ n ∈ tree, (n.property ≠ -1 → n.childID + 1 < tree.length) ∧
    ((n.property = -1 ∨ 0 ≤ n.count) → n.leafID < nLeafs)

/-- C2: case-by-case behaviour of `find_leaf` at the node `n` stored at the
current position.  A leaf (`property = -1`) yields the leaf at `n.leafID`; an
activated inner node (`count < 0`) routes to `childID` when
`properties[property] > splitval` and to `childID + 1` otherwise; a
not-yet-activated node (`count > 0`) decrements its count and yields its leaf;
a node whose count just reached 0 performs the lazy split: its count becomes
`-1`, a copy of `leaf_node[leafID]` is appended to the leaf store,
`tree[childID].leafID` becomes the old `leafID`, `tree[childID+1].leafID` the
new index (old store size), and the routing decision picks the old leaf on
`>` and the new copy otherwise — whose stored chances equal the old leaf's,
so both children start from identical learned state. -/
theorem find_leaf_cases {α : Type} [Inhabited α] (props : List Int) (fuel pos : Nat)
    (st : FPState α) (n : PropertyDecisionNode)
    (hn : st.inner_node[pos]? = some n) :
    (n.property = -1 →
      FinalPropertySymbolCoder.find_leaf props (fuel + 1) pos st = some (n.leafID, st)) ∧
    (n.property ≠ -1 → n.count < 0 →
      FinalPropertySymbolCoder.find_leaf props (fuel + 1) pos st =
        FinalPropertySymbolCoder.find_leaf props fuel
          (if props.getD n.property.toNat 0 > n.splitval then n.childID else n.childID + 1)
          st) ∧
    (n.property ≠ -1 → 0 < n.count →
      FinalPropertySymbolCoder.find_leaf props (fuel + 1) pos st =
        some (n.leafID,
          ⟨st.inner_node.set pos { n with count := n.count - 1 }, st.leaf_node⟩)) ∧
    (n.property ≠ -1 → n.count = 0 →
      (FinalPropertySymbolCoder.find_leaf props (fuel + 1) pos st =
        (let tree1 := st.inner_node.set pos { n with count := -1 };
         let tree2 := tree1.set n.childID
           { tree1.getD n.childID defaultNode with leafID := n.leafID };
         let tree3 := tree2.set (n.childID + 1)
           { tree2.getD (n.childID + 1) defaultNode with leafID := st.leaf_node.length };
         some (if props.getD n.property.toNat 0 > n.splitval then n.leafID
               else st.leaf_node.length,
           ⟨tree3, st.leaf_node ++ [st.leaf_node.getD n.leafID default]⟩))) ∧
      (st.leaf_node ++ [st.leaf_node.getD n.leafID default]).getD st.leaf_node.length default
        = st.leaf_node.getD n.leafID default) := by
  refine ⟨fun h1 => ?_, fun h1 h2 => ?_, fun h1 h2 => ?_, fun h1 h2 => ⟨?_, ?_⟩⟩
  · simp only [FinalPropertySymbolCoder.find_leaf, hn]
    rw [if_pos h1]
  · simp only [FinalPropertySymbolCoder.find_leaf, hn]
    rw [if_neg h1, if_pos h2]
  · simp only [FinalPropertySymbolCoder.find_leaf, hn]
    rw [if_neg h1, if_neg (by omega), if_pos h2]
  · simp only [FinalPropertySymbolCoder.find_leaf, hn]
    rw [if_neg h1, if_neg (by omega), if_neg (by omega)]
    simp [h2]
  · simp [List.getD_append_right, Nat.sub_self]

/-- Witness for C2: a lazy split on the three-node tree `[⟨0,0,5,1,0⟩, leaf, leaf]`
with one stored leaf `7` and `properties = [9] > splitval = 5`. -/
theorem find_leaf_cases_witness :
    FinalPropertySymbolCoder.find_leaf (α := Nat) [9] 1 0
        ⟨[⟨0, 0, 5, 1, 0⟩, defaultNode, defaultNode], [7]⟩ =
      some (0, ⟨[⟨0, -1, 5, 1, 0⟩, ⟨-1, 0, 0, 0, 0⟩, ⟨-1, 0, 0, 0, 1⟩], [7, 7]⟩) := by
  have h := (find_leaf_cases (α := Nat) [9] 0 0
    ⟨[⟨0, 0, 5, 1, 0⟩, defaultNode, defaultNode], [7]⟩ ⟨0, 0, 5, 1, 0⟩ rfl).2.2.2
    (by decide) rfl
  rw [h.1]
  rfl

/-- C5: a ranged integer read with `min == max` returns `min` immediately:
`FinalCompoundSymbolCoder::read_int` consumes no bit and updates no chance
(chances and RAC state are returned untouched), and
`FinalPropertySymbolCoder::read_int` short-circuits before `find_leaf`, so no
visit count is decremented, no lazy split occurs, and the whole coder state
(tree, leaf store, RAC) is returned unchanged. -/
theorem read_int_const_range {α ρ : Type} [Inhabited α]
    (f : Int → Int → α → ρ → Int × α × ρ) (fuel : Nat) (props : List Int)
    (mn mx : Int) (h : mn = mx) (ch : α) (st : FPState α) (rac : ρ) :
    FinalCompoundSymbolCoder.read_int f ch mn mx rac = (mn, ch, rac) ∧
    FinalPropertySymbolCoder.read_int f fuel props mn mx st rac = some (mn, st, rac) := by
  subst h
  exact ⟨by simp [FinalCompoundSymbolCoder.read_int, reader],
         by simp [FinalPropertySymbolCoder.read_int]⟩

/-- Witness for C5 at `min = max = 5` over a nontrivial decoder `f`. -/
theorem read_int_const_range_witness :
    FinalCompoundSymbolCoder.read_int (fun _ _ ch rac => (0, ch + 1, rac + 1)) (3 : Nat)
        5 5 (0 : Nat) = (5, 3, 0) ∧
    FinalPropertySymbolCoder.read_int (fun _ _ ch rac => (0, ch + 1, rac + 1)) 1 []
        5 5 (⟨[defaultNode], [3]⟩ : FPState Nat) (0 : Nat) =
      some (5, ⟨[defaultNode], [3]⟩, 0) :=
  read_int_const_range (fun _ _ ch rac => (0, ch + 1, rac + 1)) 1 [] 5 5 rfl 3
    ⟨[defaultNode], [3]⟩ 0

/-- C10: the fixed-width `FinalPropertySymbolCoder::read_int(properties, nbits)`
always invokes `find_leaf` (it fails exactly when `find_leaf` fails, and on
success its tree is the one `find_leaf` produced and the leaf store keeps the
length `find_leaf` produced — so a pending visit count is decremented or a
lazy split grows the store by one, exactly as on the ranged path), and for
`min ≠ max` the ranged read performs the identical routing mutation. -/
theorem read_int_nbits_routing {α ρ : Type} [Inhabited α]
    (g : Nat → α → ρ → Int × α × ρ) (f : Int → Int → α → ρ → Int × α × ρ)
    (fuel : Nat) (props : List Int) (nbits : Nat) (mn mx : Int)
    (st : FPState α) (rac : ρ) :
    (∀ v st' rac',
      FinalPropertySymbolCoder.read_int_nbits g fuel props nbits st rac =
        some (v, st', rac') →
      ∃ idx st1, FinalPropertySymbolCoder.find_leaf props fuel 0 st = some (idx, st1) ∧
        st'.inner_node = st1.inner_node ∧
        st'.leaf_node.length = st1.leaf_node.length) ∧
    (FinalPropertySymbolCoder.read_int_nbits g fuel props nbits st rac = none ↔
      FinalPropertySymbolCoder.find_leaf props fuel 0 st = none) ∧
    (mn ≠ mx →
      Option.map (fun r => r.2.1.inner_node)
          (FinalPropertySymbolCoder.read_int f fuel props mn mx st rac) =
        Option.map (fun r => r.2.1.inner_node)
          (FinalPropertySymbolCoder.read_int_nbits g fuel props nbits st rac)) := by
  cases hfl : FinalPropertySymbolCoder.find_leaf props fuel 0 st with
  | none =>
    refine ⟨fun v st' rac' hv => ?_, ?_, fun hne => ?_⟩
    · simp [FinalPropertySymbolCoder.read_int_nbits, hfl] at hv
    · simp [FinalPropertySymbolCoder.read_int_nbits, hfl]
    · simp [FinalPropertySymbolCoder.read_int_nbits, FinalPropertySymbolCoder.read_int,
        hfl, hne]
  | some r =>
    obtain ⟨idx, st1⟩ := r
    refine ⟨fun v st' rac' hv => ?_, ?_, fun hne => ?_⟩
    · simp only [FinalPropertySymbolCoder.read_int_nbits, hfl, Option.some.injEq,
        Prod.mk.injEq] at hv
      obtain ⟨h1, h2, h3⟩ := hv
      subst h2
      exact ⟨idx, st1, rfl, rfl, by simp⟩
    · simp [FinalPropertySymbolCoder.read_int_nbits, hfl]
    · simp [FinalPropertySymbolCoder.read_int_nbits, FinalPropertySymbolCoder.read_int,
        hfl, hne]

/-- Witness for C10: on the one-leaf tree the fixed-width read routes through
`find_leaf` and the ranged read (with `0 ≠ 1`) mutates the tree identically. -/
theorem read_int_nbits_routing_witness :
    (∀ v st' rac',
      FinalPropertySymbolCoder.read_int_nbits (fun _ ch rac => (3, ch + 1, rac)) 1 []
          4 (⟨[defaultNode], [5]⟩ : FPState Nat) (0 : Nat) = some (v, st', rac') →
      ∃ idx st1,
        FinalPropertySymbolCoder.find_leaf (α := Nat) [] 1 0 ⟨[defaultNode], [5]⟩ =
          some (idx, st1) ∧
        st'.inner_node = st1.inner_node ∧
        st'.leaf_node.length = st1.leaf_node.length) ∧
    (FinalPropertySymbolCoder.read_int_nbits (fun _ ch rac => (3, ch + 1, rac)) 1 []
        4 (⟨[defaultNode], [5]⟩ : FPState Nat) (0 : Nat) = none ↔
      FinalPropertySymbolCoder.find_leaf (α := Nat) [] 1 0 ⟨[defaultNode], [5]⟩ = none) ∧
    ((0 : Int) ≠ 1 →
      Option.map (fun r => r.2.1.inner_node)
          (FinalPropertySymbolCoder.read_int (fun _ _ ch rac => (0, ch + 2, rac)) 1 []
            0 1 (⟨[defaultNode], [5]⟩ : FPState Nat) (0 : Nat)) =
        Option.map (fun r => r.2.1.inner_node)
          (FinalPropertySymbolCoder.read_int_nbits (fun _ ch rac => (3, ch + 1, rac)) 1 []
            4 (⟨[defaultNode], [5]⟩ : FPState Nat) (0 : Nat))) :=
  read_int_nbits_routing (fun _ ch rac => (3, ch + 1, rac)) (fun _ _ ch rac => (0, ch + 2, rac))
    1 [] 4 0 1 ⟨[defaultNode], [5]⟩ 0

/-- The clamped stream read stays inside `[lo, hi]` whenever `lo ≤ hi`. -/
theorem streamRead_bounds (lo hi : Int) (s : List Int) (h : lo ≤ hi) :
    lo ≤ (streamRead lo hi s).1 ∧ (streamRead lo hi s).1 ≤ hi := by
  cases s with
  | nil => simp only [streamRead]; omega
  | cons x r => simp only [streamRead]; split_ifs <;> omega

/-- Writing back the element already stored at an index is a no-op. -/
theorem set_getD_self {β : Type} (l : List β) (i : Nat) (d : β) :
    l.set i (l.getD i d) = l := by
  apply List.ext_getElem?
  intro j
  rw [List.getElem?_set]
  split_ifs with h1 h2
  · subst h1
    rw [List.getD_eq_getElem?_getD]
    cases h : l[i]? with
    | none =>
      rw [List.getElem?_eq_none_iff] at h
      omega
    | some a => simp [h]
  · subst h1
    exact (List.getElem?_eq_none_iff.mpr (by omega)).symm
  · rfl

/-- Overwriting an index below the length with a fresh value makes `getD`
return that value. -/
theorem getD_set_self_of_lt {β : Type} (l : List β) (i : Nat) (a d : β)
    (h : i < l.length) : (l.set i a).getD i d = a := by
  rw [List.getD_eq_getElem?_getD, List.getElem?_set_eq_of_lt _ h]
  rfl

/-- C9: a successful `read_subtree` call restores its `subrange` argument:
the decoded property's `lo` is reset before the second recursion and its `hi`
is reset before returning, so on a `true` return the subrange vector equals
its value on entry. -/
theorem read_subtree_restores (fuel : Nat) :
    ∀ (pos : Nat) (sr : List (Int × Int)) (tree : List PropertyDecisionNode)
      (s : List Int) sr' t' s' recs,
      MetaPropertySymbolCoder.read_subtree fuel pos sr tree s =
        some (true, sr', t', s', recs) →
      sr' = sr := by
  induction fuel with
  | zero =>
    intro pos sr tree s sr' t' s' recs h
    simp [MetaPropertySymbolCoder.read_subtree] at h
  | succ fuel ih =>
    intro pos sr tree s sr' t' s' recs h
    simp only [MetaPropertySymbolCoder.read_subtree] at h
    by_cases hp : (streamRead 0 (sr.length : Int) s).1 - 1 = -1
    · rw [if_pos hp] at h
      simp only [Option.some.injEq, Prod.mk.injEq] at h
      exact h.2.1.symm
    · rw [if_neg hp] at h
      by_cases hlh : ((sr.getD ((streamRead 0 (sr.length : Int) s).1 - 1).toNat (0, 0)).1 ≥
          (sr.getD ((streamRead 0 (sr.length : Int) s).1 - 1).toNat (0, 0)).2)
      · rw [if_pos hlh] at h
        simp at h
      · rw [if_neg hlh] at h
        have hpi : ((streamRead 0 (sr.length : Int) s).1 - 1).toNat < sr.length := by
          have hb := streamRead_bounds 0 (sr.length : Int) s (by positivity)
          omega
        set pi := ((streamRead 0 (sr.length : Int) s).1 - 1).toNat with hpidef
        split at h
        · exact absurd h (by simp)
        · exact absurd h (by simp)
        · rename_i sr1 t1 z1 recs1 heq1
          split at h
          · exact absurd h (by simp)
          · exact absurd h (by simp)
          · rename_i sr2 t2 z2 recs2 heq2
            simp only [Option.some.injEq, Prod.mk.injEq] at h
            have e1 := ih _ _ _ _ _ _ _ _ heq1
            have e2 := ih _ _ _ _ _ _ _ _ heq2
            rw [e1, List.set_set] at e2
            have hsr' := h.2.1.symm
            rw [e2, getD_set_self_of_lt sr pi _ (0, 0) hpi, List.set_set] at hsr'
            rw [hsr']
            exact set_getD_self sr pi (0, 0)

/-- Induction core for C3: on a `false` result some traced node failed the
`lo ≥ hi` check; on a `true` result every traced inner node passed it, got its
count from `[CONTEXT_TREE_MIN_COUNT, CONTEXT_TREE_MAX_COUNT]`, its split value
from `[lo, hi-1]`, and its children at `childID` = tree size before the
append. -/
theorem read_subtree_trace_aux (fuel : Nat) :
    ∀ (pos : Nat) (sr : List (Int × Int)) (tree : List PropertyDecisionNode)
      (s : List Int) (b : Bool) sr' t' s' recs,
      MetaPropertySymbolCoder.read_subtree fuel pos sr tree s =
        some (b, sr', t', s', recs) →
      (b = false → ∃ r ∈ recs, r.ok = false ∧ r.hi ≤ r.lo) ∧
      (b = true → ∀ r ∈ recs, r.ok = true ∧ r.lo < r.hi ∧
        CONTEXT_TREE_MIN_COUNT ≤ r.count ∧ r.count ≤ CONTEXT_TREE_MAX_COUNT ∧
        r.lo ≤ r.splitval ∧ r.splitval ≤ r.hi - 1 ∧ r.childID = r.sizeBefore) := by
  induction fuel with
  | zero =>
    intro pos sr tree s b sr' t' s' recs h
    simp [MetaPropertySymbolCoder.read_subtree] at h
  | succ fuel ih =>
    intro pos sr tree s b sr' t' s' recs h
    simp only [MetaPropertySymbolCoder.read_subtree] at h
    by_cases hp : (streamRead 0 (sr.length : Int) s).1 - 1 = -1
    · rw [if_pos hp] at h
      simp only [Option.some.injEq, Prod.mk.injEq] at h
      obtain ⟨hb, _, _, _, hrecs⟩ := h
      subst hb
      subst hrecs
      exact ⟨fun hf => by simp at hf, fun _ r hr => by simp at hr⟩
    · rw [if_neg hp] at h
      set pi := ((streamRead 0 (sr.length : Int) s).1 - 1).toNat with hpidef
      by_cases hlh : ((sr.getD pi (0, 0)).1 ≥ (sr.getD pi (0, 0)).2)
      · rw [if_pos hlh] at h
        simp only [Option.some.injEq, Prod.mk.injEq] at h
        obtain ⟨hb, _, _, _, hrecs⟩ := h
        subst hb
        subst hrecs
        refine ⟨fun _ => ⟨_, List.mem_singleton_self _, rfl, hlh⟩, fun ht => by simp at ht⟩
      · rw [if_neg hlh] at h
        split at h
        · exact absurd h (by simp)
        · rename_i sr1 t1 z1 recs1 heq1
          simp only [Option.some.injEq, Prod.mk.injEq] at h
          obtain ⟨hb, _, _, _, hrecs⟩ := h
          subst hb
          subst hrecs
          refine ⟨fun _ => ?_, fun ht => by simp at ht⟩
          obtain ⟨r, hr, hro⟩ := ((ih _ _ _ _ _ _ _ _ _ heq1).1 rfl)
          exact ⟨r, List.mem_cons_of_mem _ hr, hro⟩
        · rename_i sr1 t1 z1 recs1 heq1
          split at h
          · exact absurd h (by simp)
          · rename_i sr2 t2 z2 recs2 heq2
            simp only [Option.some.injEq, Prod.mk.injEq] at h
            obtain ⟨hb, _, _, _, hrecs⟩ := h
            subst hb
            subst hrecs
            refine ⟨fun _ => ?_, fun ht => by simp at ht⟩
            obtain ⟨r, hr, hro⟩ := ((ih _ _ _ _ _ _ _ _ _ heq2).1 rfl)
            exact ⟨r, List.mem_cons_of_mem _ (List.mem_append_right _ hr), hro⟩
          · rename_i sr2 t2 z2 recs2 heq2
            simp only [Option.some.injEq, Prod.mk.injEq] at h
            obtain ⟨hb, _, _, _, hrecs⟩ := h
            subst hb
            subst hrecs
            refine ⟨fun hf => by simp at hf, fun _ r hr => ?_⟩
            rcases List.mem_cons.mp hr with hr0 | hr12
            · subst hr0
              dsimp only
              have hcnt := streamRead_bounds CONTEXT_TREE_MIN_COUNT CONTEXT_TREE_MAX_COUNT
                (streamRead 0 (sr.length : Int) s).2 (by decide)
              have hsv := streamRead_bounds (sr.getD pi (0, 0)).1 ((sr.getD pi (0, 0)).2 - 1)
                (streamRead CONTEXT_TREE_MIN_COUNT CONTEXT_TREE_MAX_COUNT
                  (streamRead 0 (sr.length : Int) s).2).2 (by omega)
              exact ⟨rfl, by omega, hcnt.1, hcnt.2, hsv.1, hsv.2, rfl⟩
            · rcases List.mem_append.mp hr12 with hr1 | hr2
              · exact (ih _ _ _ _ _ _ _ _ _ heq1).2 rfl r hr1
              · exact (ih _ _ _ _ _ _ _ _ _ heq2).2 rfl r hr2

/-- C3: `read_subtree` returns `false` exactly when some visited node decoded a
property `p ≠ -1` whose current `subrange[p]` has `lo ≥ hi` (all traced nodes
are such nodes, and failing ones carry `ok = false`); on a `true` return every
decoded inner node received its count from
`[CONTEXT_TREE_MIN_COUNT, CONTEXT_TREE_MAX_COUNT]`, its split value from
`[lo, hi - 1]` as current at that node, and its two fresh children were
appended contiguously at `childID` = tree size before the append. -/
theorem read_subtree_validity (fuel pos : Nat) (sr : List (Int × Int))
    (tree : List PropertyDecisionNode) (s : List Int) (b : Bool) sr' t' s' recs
    (h : MetaPropertySymbolCoder.read_subtree fuel pos sr tree s =
      some (b, sr', t', s', recs)) :
    (b = false ↔ ∃ r ∈ recs, r.hi ≤ r.lo) ∧
    (b = true → ∀ r ∈ recs, r.lo < r.hi ∧
      CONTEXT_TREE_MIN_COUNT ≤ r.count ∧ r.count ≤ CONTEXT_TREE_MAX_COUNT ∧
      r.lo ≤ r.splitval ∧ r.splitval ≤ r.hi - 1 ∧ r.childID = r.sizeBefore) := by
  have haux := read_subtree_trace_aux fuel pos sr tree s b sr' t' s' recs h
  constructor
  · constructor
    · intro hb
      obtain ⟨r, hr, _, hro⟩ := haux.1 hb
      exact ⟨r, hr, hro⟩
    · intro ⟨r, hr, hro⟩
      cases b with
      | false => rfl
      | true => exact absurd hro (by have := (haux.2 rfl r hr).2.1; omega)
  · intro hb r hr
    exact ((haux.2 hb r hr).2)

/-- Witness for C3: a successful decode (single split, two leaves) and the
associated trace record checks. -/
theorem read_subtree_validity_witness :
    ((false = false ↔ ∃ r ∈ [(⟨0, 0, 5, 5, false, 0, 0, 0, 0⟩ : SubtreeRec)], r.hi ≤ r.lo) ∧
     (false = true → ∀ r ∈ [(⟨0, 0, 5, 5, false, 0, 0, 0, 0⟩ : SubtreeRec)], r.lo < r.hi ∧
       CONTEXT_TREE_MIN_COUNT ≤ r.count ∧ r.count ≤ CONTEXT_TREE_MAX_COUNT ∧
       r.lo ≤ r.splitval ∧ r.splitval ≤ r.hi - 1 ∧ r.childID = r.sizeBefore)) :=
  read_subtree_validity 3 0 [((5 : Int), (5 : Int))] [defaultNode] [1, 7, 2] false
    [(5, 5)] [⟨0, 0, 0, 0, 0⟩] [7, 2] [⟨0, 0, 5, 5, false, 0, 0, 0, 0⟩] rfl

/-- Witness for C9: a successful single-split decode returns the entry
subrange `[(0,5)]` unchanged. -/
theorem read_subtree_restores_witness :
    MetaPropertySymbolCoder.read_subtree 3 0 [((0 : Int), (5 : Int))] [defaultNode]
        [1, 7, 2, 0, 0] =
      some (true, [(0, 5)], [⟨0, 7, 2, 1, 0⟩, defaultNode, defaultNode], [],
        [⟨0, 0, 0, 5, true, 7, 2, 1, 1⟩]) ∧
    ([((0 : Int), (5 : Int))] : List (Int × Int)) = [((0 : Int), (5 : Int))] :=
  ⟨rfl, read_subtree_restores 3 0 [((0 : Int), (5 : Int))] [defaultNode] [1, 7, 2, 0, 0]
    [(0, 5)] [⟨0, 7, 2, 1, 0⟩, defaultNode, defaultNode] []
    [⟨0, 0, 0, 5, true, 7, 2, 1, 1⟩] rfl⟩

/-- Any element of a set-updated list is the new value or an element of the
original list; pointwise predicates transfer accordingly. -/
theorem forall_mem_set {β : Type} {l : List β} {i : Nat} {a : β} {P : β → Prop}
    (hl : ∀ m ∈ l, P m) (ha : P a) : ∀ m ∈ l.set i a, P m :=
  fun m hm => (List.mem_or_eq_of_mem_set hm).elim (hl m) (fun e => e ▸ ha)

/-- `getD` returns an element of the list or the default. -/
theorem getD_P {β : Type} {l : List β} (i : Nat) {d : β} {P : β → Prop}
    (hl : ∀ m ∈ l, P m) (hd : P d) : P (l.getD i d) := by
  rw [List.getD_eq_getElem?_getD]
  cases h : l[i]? with
  | none => exact hd
  | some a => exact hl a (List.getElem?_mem h)

/-- Induction core for C8(a): `read_subtree` keeps every tree node pristine
(`leafID = 0`) with children inside the tree, and only grows the tree. -/
theorem read_subtree_pristine (fuel : Nat) :
    ∀ (pos : Nat) (sr : List (Int × Int)) (tree : List PropertyDecisionNode)
      (s : List Int) sr' t' s' recs,
      (∀ n ∈ tree, n.leafID = 0 ∧ (n.property ≠ -1 → n.childID + 1 < tree.length)) →
      MetaPropertySymbolCoder.read_subtree fuel pos sr tree s =
        some (true, sr', t', s', recs) →
      tree.length ≤ t'.length ∧
      (∀ n ∈ t', n.leafID = 0 ∧ (n.property ≠ -1 → n.childID + 1 < t'.length)) := by
  induction fuel with
  | zero =>
    intro pos sr tree s sr' t' s' recs hpr h
    simp [MetaPropertySymbolCoder.read_subtree] at h
  | succ fuel ih =>
    intro pos sr tree s sr' t' s' recs hpr h
    simp only [MetaPropertySymbolCoder.read_subtree] at h
    by_cases hp : (streamRead 0 (sr.length : Int) s).1 - 1 = -1
    · rw [if_pos hp] at h
      simp only [Option.some.injEq, Prod.mk.injEq] at h
      obtain ⟨_, _, ht', _, _⟩ := h
      subst ht'
      rw [List.length_set]
      refine ⟨le_refl _, forall_mem_set (fun m hm => ?_) ?_⟩
      · exact ⟨(hpr m hm).1, fun hmp => (hpr m hm).2 hmp⟩
      · refine ⟨?_, fun hmp => absurd rfl hmp⟩
        exact (getD_P pos (fun m hm => (hpr m hm).1) rfl)
    · rw [if_neg hp] at h
      set pi := ((streamRead 0 (sr.length : Int) s).1 - 1).toNat with hpidef
      by_cases hlh : ((sr.getD pi (0, 0)).1 ≥ (sr.getD pi (0, 0)).2)
      · rw [if_pos hlh] at h
        exact absurd h (by simp)
      · rw [if_neg hlh] at h
        split at h
        · exact absurd h (by simp)
        · exact absurd h (by simp)
        · rename_i sr1 t1 z1 recs1 heq1
          split at h
          · exact absurd h (by simp)
          · exact absurd h (by simp)
          · rename_i sr2 t2 z2 recs2 heq2
            simp only [Option.some.injEq, Prod.mk.injEq] at h
            obtain ⟨_, _, ht', _, _⟩ := h
            subst ht'
            have hlen2 : ((tree.set pos
                { tree.getD pos defaultNode with
                  property := (streamRead 0 (sr.length : Int) s).1 - 1,
                  count := (streamRead CONTEXT_TREE_MIN_COUNT CONTEXT_TREE_MAX_COUNT
                    (streamRead 0 (sr.length : Int) s).2).1,
                  splitval := (streamRead (sr.getD pi (0, 0)).1 ((sr.getD pi (0, 0)).2 - 1)
                    (streamRead CONTEXT_TREE_MIN_COUNT CONTEXT_TREE_MAX_COUNT
                      (streamRead 0 (sr.length : Int) s).2).2).1,
                  childID := tree.length }) ++
                [defaultNode, defaultNode]).length = tree.length + 2 := by
              simp [List.length_set]
            have hpr2 : ∀ n ∈ (tree.set pos
                { tree.getD pos defaultNode with
                  property := (streamRead 0 (sr.length : Int) s).1 - 1,
                  count := (streamRead CONTEXT_TREE_MIN_COUNT CONTEXT_TREE_MAX_COUNT
                    (streamRead 0 (sr.length : Int) s).2).1,
                  splitval := (streamRead (sr.getD pi (0, 0)).1 ((sr.getD pi (0, 0)).2 - 1)
                    (streamRead CONTEXT_TREE_MIN_COUNT CONTEXT_TREE_MAX_COUNT
                      (streamRead 0 (sr.length : Int) s).2).2).1,
                  childID := tree.length }) ++
                [defaultNode, defaultNode],
                n.leafID = 0 ∧ (n.property ≠ -1 → n.childID + 1 <
                  ((tree.set pos
                    { tree.getD pos defaultNode with
                      property := (streamRead 0 (sr.length : Int) s).1 - 1,
                      count := (streamRead CONTEXT_TREE_MIN_COUNT CONTEXT_TREE_MAX_COUNT
                        (streamRead 0 (sr.length : Int) s).2).1,
                      splitval := (streamRead (sr.getD pi (0, 0)).1 ((sr.getD pi (0, 0)).2 - 1)
                        (streamRead CONTEXT_TREE_MIN_COUNT CONTEXT_TREE_MAX_COUNT
                          (streamRead 0 (sr.length : Int) s).2).2).1,
                      childID := tree.length }) ++
                    [defaultNode, defaultNode]).length) := by
              rw [hlen2]
              intro n hn
              rcases List.mem_append.mp hn with hn1 | hn2
              · refine (List.mem_or_eq_of_mem_set hn1).elim (fun hm => ?_) (fun hm => ?_)
                · exact ⟨(hpr n hm).1, fun hmp => by have := (hpr n hm).2 hmp; omega⟩
                · subst hm
                  dsimp only
                  refine ⟨getD_P pos (fun m hm => (hpr m hm).1) rfl, fun _ => by omega⟩
              · have hn2' : n = defaultNode := by simpa using hn2
                subst hn2'
                exact ⟨rfl, fun hc => absurd rfl hc⟩
            obtain ⟨hl1, hp1⟩ := ih _ _ _ _ _ _ _ _ hpr2 heq1
            obtain ⟨hl2, hp2⟩ := ih _ _ _ _ _ _ _ _ hp1 heq2
            exact ⟨by omega, hp2⟩

/-- Induction core for C8(b): `find_leaf` preserves tree well-formedness
relative to the (possibly grown) leaf store. -/
theorem find_leaf_WF_aux {α : Type} [Inhabited α] (props : List Int) :
    ∀ (fuel pos : Nat) (st : FPState α) (res : Nat) (st' : FPState α),
      WFtree st.inner_node st.leaf_node.length →
      FinalPropertySymbolCoder.find_leaf props fuel pos st = some (res, st') →
      WFtree st'.inner_node st'.leaf_node.length := by
  intro fuel
  induction fuel with
  | zero =>
    intro pos st res st' hwf h
    simp [FinalPropertySymbolCoder.find_leaf] at h
  | succ fuel ih =>
    intro pos st res st' hwf h
    simp only [FinalPropertySymbolCoder.find_leaf] at h
    split at h
    · exact absurd h (by simp)
    · rename_i n hn
      by_cases h1 : n.property = -1
      · rw [if_pos h1] at h
        simp only [Option.some.injEq, Prod.mk.injEq] at h
        obtain ⟨_, hst⟩ := h
        subst hst
        exact hwf
      · rw [if_neg h1] at h
        by_cases h2 : n.count < 0
        · rw [if_pos h2] at h
          exact ih _ _ _ _ hwf h
        · rw [if_neg h2] at h
          by_cases h3 : 0 < n.count
          · rw [if_pos h3] at h
            simp only [Option.some.injEq, Prod.mk.injEq] at h
            obtain ⟨_, hst⟩ := h
            subst hst
            simp only [WFtree, List.length_set] at hwf ⊢
            have hn' := hwf n (List.getElem?_mem hn)
            refine forall_mem_set (fun m hm => hwf m hm) ⟨fun hp => hn'.1 hp, fun hlr => ?_⟩
            refine hn'.2 ?_
            rcases hlr with hlr | hlr
            · exact Or.inl hlr
            · refine Or.inr ?_
              have hlr' : (0 : Int) ≤ n.count - 1 := hlr
              omega
          · rw [if_neg h3] at h
            simp only [Option.some.injEq, Prod.mk.injEq] at h
            obtain ⟨_, hst⟩ := h
            subst hst
            simp only [WFtree, List.length_set, List.length_append, List.length_cons,
              List.length_nil, Nat.zero_add] at hwf ⊢
            have hn' := hwf n (List.getElem?_mem hn)
            have hnl : n.leafID < st.leaf_node.length := hn'.2 (Or.inr (by omega))
            have hchild : ∀ m ∈ (st.inner_node.set pos { n with count := n.count - 1 }),
                (m.property ≠ -1 → m.childID + 1 < st.inner_node.length) :=
              forall_mem_set (fun m hm => (hwf m hm).1) (fun hp => hn'.1 hp)
            have hchild2 : ∀ m ∈ ((st.inner_node.set pos { n with count := n.count - 1 }).set
                n.childID { (st.inner_node.set pos { n with count := n.count - 1 }).getD
                  n.childID defaultNode with leafID := n.leafID }),
                (m.property ≠ -1 → m.childID + 1 < st.inner_node.length) :=
              forall_mem_set hchild
                (getD_P n.childID hchild (fun hp2 => absurd rfl hp2))
            refine forall_mem_set (forall_mem_set (forall_mem_set
              (fun m hm => ⟨(hwf m hm).1,
                fun hlr => Nat.lt_succ_of_lt ((hwf m hm).2 hlr)⟩)
              ⟨fun hp => hn'.1 hp, fun hlr => ?_⟩)
              ⟨fun hp => getD_P n.childID hchild (fun hp2 => absurd rfl hp2) hp,
               fun _ => Nat.lt_succ_of_lt hnl⟩)
              ⟨fun hp => getD_P (n.childID + 1) hchild2 (fun hp2 => absurd rfl hp2) hp,
               fun _ => Nat.lt_succ_self _⟩
            rcases hlr with hlr | hlr
            · exact absurd hlr h1
            · have hlr' : (0 : Int) ≤ n.count - 1 := hlr
              omega

/-- C8: tree well-formedness (children of every inner node exist; `leafID` of
every leaf-role node indexes the leaf store) is established by every
successful `read_tree` — all decoded nodes keep `leafID = 0` and the single
root leaf exists — and preserved by every `find_leaf` call, including lazy
splits, which grow the leaf store together with the child `leafID`s. -/
theorem tree_wellformedness :
    (∀ (fuel : Nat) (range : List (Int × Int)) (s : List Int) sr' t' s' recs,
      MetaPropertySymbolCoder.read_tree fuel range s = some (true, sr', t', s', recs) →
      WFtree t' 1) ∧
    (∀ (α : Type) [Inhabited α] (props : List Int) (fuel pos : Nat) (st : FPState α)
      (res : Nat) (st' : FPState α),
      WFtree st.inner_node st.leaf_node.length →
      FinalPropertySymbolCoder.find_leaf props fuel pos st = some (res, st') →
      WFtree st'.inner_node st'.leaf_node.length) := by
  constructor
  · intro fuel range s sr' t' s' recs h
    have hroot : ∀ n ∈ [defaultNode], n.leafID = 0 ∧
        (n.property ≠ -1 → n.childID + 1 < [defaultNode].length) := by
      intro n hn
      have hn' : n = defaultNode := by simpa using hn
      subst hn'
      exact ⟨rfl, fun hc => absurd rfl hc⟩
    have hpr := read_subtree_pristine fuel 0 range [defaultNode] s sr' t' s' recs hroot h
    intro m hm
    exact ⟨fun hp => (hpr.2 m hm).2 hp, fun _ => by have := (hpr.2 m hm).1; omega⟩
  · intro α _ props fuel pos st res st' hwf h
    exact find_leaf_WF_aux props fuel pos st res st' hwf h

/-- Witness for C8: the decoded single-split tree is well-formed with the
one-leaf store, and stays well-formed after a `find_leaf` visit decrements
the root count. -/
theorem tree_wellformedness_witness :
    WFtree [⟨1, 1, 128, 1, 0⟩, defaultNode, defaultNode] 1 ∧
    WFtree [⟨1, 0, 128, 1, 0⟩, defaultNode, defaultNode] 1 :=
  ⟨tree_wellformedness.1 3 [((0 : Int), (255 : Int)), (0, 255)] [2, 1, 128, 0, 0]
      [(0, 255), (0, 255)] [⟨1, 1, 128, 1, 0⟩, defaultNode, defaultNode] []
      [⟨0, 1, 0, 255, true, 1, 128, 1, 1⟩] rfl,
   tree_wellformedness.2 Nat [] 1 0 ⟨[⟨1, 1, 128, 1, 0⟩, defaultNode, defaultNode], [7]⟩
      0 ⟨[⟨1, 0, 128, 1, 0⟩, defaultNode, defaultNode], [7]⟩
      (by simp only [WFtree]; decide) rfl⟩
